import Mathlib

/-!
# Grace-period detection of `CodeSamples/defer/rcu_rcpls.c`

A shallow embedding of `flip_counter_and_wait` and `synchronize_rcu` as a
small-step machine over the shared variables `rcu_idx`, `rcu_gp_lock` and
`rcu_refcnt`, run under an arbitrary interleaving of threads.

Conventions of the embedding.

* C `int` values are mathematical integers (`Int`); signed overflow is
  undefined behaviour in C and is not modelled. The declarations of `rcu_idx`,
  `rcu_refcnt` and `rcu_gp_lock` are in `rcu_rcpls.h`; the index and the
  counters are taken to be integers that do not wrap.
* `ctr & 0x1` is `ctr % 2` (Euclidean remainder, the low bit in two's
  complement), turned into a slot number 0 or 1.
* `smp_mb()` and `barrier()` are no-ops: executions are interleavings of
  atomic steps (sequential consistency).
* `for_each_thread(t)` runs over the thread numbers `0 .. n-1`.
* One step of a thread performs at most one access to a shared variable (the
  test-and-set of the lock, and the update by a thread of its own counter,
  count as one), together with the purely local computation that follows it.
* A thread that spins (on the lock, or on a nonzero counter) takes a step that
  leaves the state unchanged.
-/

namespace RcuRcpls

/-! ## Data model -/

/-- The shared variables of the file: the flip index, the grace-period
spinlock (`true` when held) and the per-thread pairs of counters
(`rcu_refcnt t i` is `per_thread(rcu_refcnt, t)[i]`). -/
structure Shared where
  rcu_idx : Int
  rcu_gp_lock : Bool
  rcu_refcnt : Nat → Nat → Int

/-- Position of a thread with respect to its read-side critical section:
`out`side; inside `rcu_read_lock`, having `fetched` the slot `i` from the flip
index and about to increment its counter; or in the critical section
(`inCS i`), its counter of slot `i` incremented. -/
inductive RdPC where
  | out : RdPC
  | fetched (i : Nat) : RdPC
  | inCS (i : Nat) : RdPC
  deriving DecidableEq

/-- Program counter of a thread inside `synchronize_rcu`.

* `idle`: not in a call.
* `snapshotted`: line 51, `oldctr` has been read, about to `spin_lock`.
* `locked`: line 52, the lock is held, about to read `ctr`.
* `early`: line 61, about to unlock and return early.
* `fcwStore second c`: line 31 of `flip_counter_and_wait(c)`, called from
  line 73 (`second = false`) or from line 75 (`second = true`).
* `fcwPoll second i t`: line 35, testing slot `i` of thread `t`.
* `unlock`: line 77. -/
inductive WrPC where
  | idle : WrPC
  | snapshotted : WrPC
  | locked : WrPC
  | early : WrPC
  | fcwStore (second : Bool) (c : Int) : WrPC
  | fcwPoll (second : Bool) (i : Nat) (t : Nat) : WrPC
  | unlock : WrPC
  deriving DecidableEq

/-- The private state of a thread: its two program counters, the locals
`oldctr` and `ctr` of `synchronize_rcu`, and `flips`, an instrumentation
counter (never read by the code) of the stores to `rcu_idx` made by the
thread's current or most recent call of `synchronize_rcu`. -/
structure Thread where
  rd : RdPC
  wr : WrPC
  oldctr : Int
  ctr : Int
  flips : Nat

/-- A machine state: the shared variables and every thread's private state. -/
structure State where
  g : Shared
  thr : Nat → Thread

/-- The three entry points a thread can run. -/
inductive Op where
  | rcu_read_lock : Op
  | rcu_read_unlock : Op
  | synchronize_rcu : Op
  deriving DecidableEq

/-- The slot selected by the low bit of an index value: `c & 0x1`. -/
def slotOf (c : Int) : Nat := (c % 2).toNat

/-- Add `d` to the counter of thread `t` in slot `i`. -/
def bump (f : Nat → Nat → Int) (t i : Nat) (d : Int) : Nat → Nat → Int :=
  fun u j => if u = t ∧ j = i then f u j + d else f u j

/-! ## Reader side -/

/-- Modelled from the spec: `rcu_read_lock` lives in `rcu_rcpls.h`, which is
not among the sources. Section 4.1: the calling thread increments its counter
slot selected by the low bit of the current flip index; section 4.2 step 5: a
thread can be preempted between reading the index and incrementing, so these
are two steps. Critical sections are single-depth. -/
def rcu_read_lock (t : Nat) (g : Shared) (th : Thread) : Shared × Thread :=
  match th.wr, th.rd with
  | WrPC.idle, RdPC.out => (g, { th with rd := RdPC.fetched (slotOf g.rcu_idx) })
  | WrPC.idle, RdPC.fetched i =>
      ({ g with rcu_refcnt := bump g.rcu_refcnt t i 1 }, { th with rd := RdPC.inCS i })
  | _, _ => (g, th)

/-- Modelled from the spec: `rcu_read_unlock` lives in `rcu_rcpls.h`, which is
not among the sources. Section 4.1: it decrements the same slot that the
matching `rcu_read_lock` incremented. -/
def rcu_read_unlock (t : Nat) (g : Shared) (th : Thread) : Shared × Thread :=
  match th.wr, th.rd with
  | WrPC.idle, RdPC.inCS i =>
      ({ g with rcu_refcnt := bump g.rcu_refcnt t i (-1) }, { th with rd := RdPC.out })
  | _, _ => (g, th)

/-! ## Writer side -/

/-- One step of a thread inside `flip_counter_and_wait` (lines 26-41), for a
machine with `n` threads. `ret` is where the caller continues after the
function returns.

* line 31: `rcu_idx = ctr + 1`, then `i = ctr & 0x1`, `t` starts at 0 (the
  store is also counted in the instrumentation field `flips`);
* line 35: while `t < n`, test `rcu_refcnt[t][i]`: nonzero keeps the thread
  where it is (it spins), zero moves on to thread `t + 1`;
* when `t` reaches `n` the function returns. -/
def flip_counter_and_wait (n : Nat) (ret : WrPC) (g : Shared) (th : Thread) :
    Shared × Thread :=
  match th.wr with
  | WrPC.fcwStore second c =>
      ({ g with rcu_idx := c + 1 },
       { th with wr := WrPC.fcwPoll second (slotOf c) 0, flips := th.flips + 1 })
  | WrPC.fcwPoll second i t =>
      if t < n then
        if g.rcu_refcnt t i ≠ 0 then (g, th)
        else (g, { th with wr := WrPC.fcwPoll second i (t + 1) })
      else (g, { th with wr := ret })
  | _ => (g, th)

/-- One step of a thread inside `synchronize_rcu` (lines 43-79).

* call, line 49: `oldctr = rcu_idx` (and the instrumentation field `flips`
  is reset);
* line 51: `spin_lock`, which spins while the lock is held;
* lines 52-53: `ctr = rcu_idx`, then the test `ctr - oldctr >= 3`;
* line 61: early `spin_unlock` and return;
* line 73: `flip_counter_and_wait(ctr)`, then the test `ctr - oldctr < 2` of
  line 74 on return;
* line 75: `flip_counter_and_wait(ctr + 1)`;
* line 77: `spin_unlock` and return.

A thread cannot enter while it is in the middle of `rcu_read_lock`. -/
def synchronize_rcu (n : Nat) (g : Shared) (th : Thread) : Shared × Thread :=
  match th.wr with
  | WrPC.idle =>
      match th.rd with
      | RdPC.fetched _ => (g, th)
      | _ => (g, { th with wr := WrPC.snapshotted, oldctr := g.rcu_idx, flips := 0 })
  | WrPC.snapshotted =>
      if g.rcu_gp_lock then (g, th)
      else ({ g with rcu_gp_lock := true }, { th with wr := WrPC.locked })
  | WrPC.locked =>
      if g.rcu_idx - th.oldctr ≥ 3 then
        (g, { th with ctr := g.rcu_idx, wr := WrPC.early })
      else
        (g, { th with ctr := g.rcu_idx, wr := WrPC.fcwStore false g.rcu_idx })
  | WrPC.early => ({ g with rcu_gp_lock := false }, { th with wr := WrPC.idle })
  | WrPC.fcwStore false _ | WrPC.fcwPoll false _ _ =>
      flip_counter_and_wait n
        (if th.ctr - th.oldctr < 2 then WrPC.fcwStore true (th.ctr + 1) else WrPC.unlock)
        g th
  | WrPC.fcwStore true _ | WrPC.fcwPoll true _ _ =>
      flip_counter_and_wait n WrPC.unlock g th
  | WrPC.unlock => ({ g with rcu_gp_lock := false }, { th with wr := WrPC.idle })

/-! ## Interleaved executions -/

/-- One step of thread `t` of the private-state/shared-state pair. -/
def runOp (n : Nat) (o : Op) (t : Nat) (g : Shared) (th : Thread) : Shared × Thread :=
  match o with
  | Op.rcu_read_lock => rcu_read_lock t g th
  | Op.rcu_read_unlock => rcu_read_unlock t g th
  | Op.synchronize_rcu => synchronize_rcu n g th

/-- One scheduling step: thread `l.1` advances by one step inside entry
point `l.2`. A thread that is not registered (`l.1 ≥ n`), or that cannot
run this entry point where it stands, leaves the state unchanged. -/
def step (n : Nat) (s : State) (l : Nat × Op) : State :=
  if l.1 < n then
    { g := (runOp n l.2 l.1 s.g (s.thr l.1)).1,
      thr := Function.update s.thr l.1 (runOp n l.2 l.1 s.g (s.thr l.1)).2 }
  else s

/-- Run a schedule, a list of scheduling steps, from a state. -/
def exec (n : Nat) (s : State) (σ : List (Nat × Op)) : State :=
  σ.foldl (step n) s

/-- The initial state: flip index `v0`, lock free, all counters zero, every
thread outside any call. -/
def init (v0 : Int) : State :=
  { g := { rcu_idx := v0, rcu_gp_lock := false, rcu_refcnt := fun _ _ => 0 },
    thr := fun _ => { rd := RdPC.out, wr := WrPC.idle, oldctr := 0, ctr := 0, flips := 0 } }

/-! ## The atomic actions, as a relation

`LStep n t g th g' th'` lists the atomic actions a thread `t` can take from
shared variables `g` and private state `th`; `runOp_spec` shows every step of
the machine is one of them. The preservation proofs go by cases on it. -/

/-- The atomic actions of a thread. -/
inductive LStep (n t : Nat) : Shared → Thread → Shared → Thread → Prop where
  | stutter (g th) : LStep n t g th g th
  | rlFetch (g th) : th.wr = WrPC.idle → th.rd = RdPC.out →
      LStep n t g th g { th with rd := RdPC.fetched (slotOf g.rcu_idx) }
  | rlInc (g th i) : th.wr = WrPC.idle → th.rd = RdPC.fetched i →
      LStep n t g th { g with rcu_refcnt := bump g.rcu_refcnt t i 1 }
        { th with rd := RdPC.inCS i }
  | ruDec (g th i) : th.wr = WrPC.idle → th.rd = RdPC.inCS i →
      LStep n t g th { g with rcu_refcnt := bump g.rcu_refcnt t i (-1) }
        { th with rd := RdPC.out }
  | call (g th) : th.wr = WrPC.idle → (∀ i, th.rd ≠ RdPC.fetched i) →
      LStep n t g th g { th with wr := WrPC.snapshotted, oldctr := g.rcu_idx, flips := 0 }
  | acquire (g th) : th.wr = WrPC.snapshotted → g.rcu_gp_lock = false →
      LStep n t g th { g with rcu_gp_lock := true } { th with wr := WrPC.locked }
  | readEarly (g th) : th.wr = WrPC.locked → g.rcu_idx - th.oldctr ≥ 3 →
      LStep n t g th g { th with ctr := g.rcu_idx, wr := WrPC.early }
  | readFlip (g th) : th.wr = WrPC.locked → g.rcu_idx - th.oldctr < 3 →
      LStep n t g th g { th with ctr := g.rcu_idx, wr := WrPC.fcwStore false g.rcu_idx }
  | earlyRet (g th) : th.wr = WrPC.early →
      LStep n t g th { g with rcu_gp_lock := false } { th with wr := WrPC.idle }
  | store (g th b c) : th.wr = WrPC.fcwStore b c →
      LStep n t g th { g with rcu_idx := c + 1 }
        { th with wr := WrPC.fcwPoll b (slotOf c) 0, flips := th.flips + 1 }
  | pollNext (g th b i p) : th.wr = WrPC.fcwPoll b i p → p < n → g.rcu_refcnt p i = 0 →
      LStep n t g th g { th with wr := WrPC.fcwPoll b i (p + 1) }
  | exitAgain (g th i p) : th.wr = WrPC.fcwPoll false i p → ¬ p < n →
      th.ctr - th.oldctr < 2 →
      LStep n t g th g { th with wr := WrPC.fcwStore true (th.ctr + 1) }
  | exitDone (g th i p) : th.wr = WrPC.fcwPoll false i p → ¬ p < n →
      ¬ th.ctr - th.oldctr < 2 →
      LStep n t g th g { th with wr := WrPC.unlock }
  | exitSecond (g th i p) : th.wr = WrPC.fcwPoll true i p → ¬ p < n →
      LStep n t g th g { th with wr := WrPC.unlock }
  | ret (g th) : th.wr = WrPC.unlock →
      LStep n t g th { g with rcu_gp_lock := false } { th with wr := WrPC.idle }

/-! ## The invariant of reachable states -/

/-- The program points of `synchronize_rcu` between `spin_lock` and
`spin_unlock`. -/
def holdsLock : WrPC → Bool
  | WrPC.idle => false
  | WrPC.snapshotted => false
  | _ => true

/-- What is known of the shared variables and the locals at each program
point of `synchronize_rcu`. -/
def WrOK (g : Shared) (th : Thread) : Prop :=
  match th.wr with
  | WrPC.idle => True
  | WrPC.snapshotted => th.oldctr ≤ g.rcu_idx ∧ th.flips = 0
  | WrPC.locked => g.rcu_gp_lock = true ∧ th.oldctr ≤ g.rcu_idx ∧ th.flips = 0
  | WrPC.early =>
      g.rcu_gp_lock = true ∧ g.rcu_idx = th.ctr ∧ th.ctr - th.oldctr ≥ 3 ∧ th.flips = 0
  | WrPC.fcwStore b c =>
      g.rcu_gp_lock = true ∧ th.oldctr ≤ th.ctr ∧ g.rcu_idx = c ∧
      (b = false → c = th.ctr ∧ th.ctr - th.oldctr < 3 ∧ th.flips = 0) ∧
      (b = true → c = th.ctr + 1 ∧ th.ctr - th.oldctr < 2 ∧ th.flips = 1)
  | WrPC.fcwPoll b i _ =>
      g.rcu_gp_lock = true ∧ th.oldctr ≤ th.ctr ∧
      (b = false → g.rcu_idx = th.ctr + 1 ∧ i = slotOf th.ctr ∧
        th.ctr - th.oldctr < 3 ∧ th.flips = 1) ∧
      (b = true → g.rcu_idx = th.ctr + 2 ∧ i = slotOf (th.ctr + 1) ∧
        th.ctr - th.oldctr < 2 ∧ th.flips = 2)
  | WrPC.unlock =>
      g.rcu_gp_lock = true ∧ th.oldctr ≤ th.ctr ∧ th.ctr - th.oldctr < 3 ∧
      (th.ctr - th.oldctr < 2 → g.rcu_idx = th.ctr + 2 ∧ th.flips = 2) ∧
      (¬ th.ctr - th.oldctr < 2 → g.rcu_idx = th.ctr + 1 ∧ th.flips = 1)

/-- The counters of thread `t` agree with its position: 1 in the slot of an
open critical section, 0 elsewhere. -/
def RdOK (g : Shared) (t : Nat) (th : Thread) : Prop :=
  match th.rd with
  | RdPC.out => g.rcu_refcnt t 0 = 0 ∧ g.rcu_refcnt t 1 = 0
  | RdPC.fetched i => i < 2 ∧ g.rcu_refcnt t 0 = 0 ∧ g.rcu_refcnt t 1 = 0
  | RdPC.inCS i => i < 2 ∧ g.rcu_refcnt t i = 1 ∧ g.rcu_refcnt t (1 - i) = 0

/-- The flips recorded for a thread lie below the current index. -/
def FlOK (g : Shared) (th : Thread) : Prop :=
  th.flips ≤ 2 ∧ (1 ≤ th.flips → th.ctr + th.flips ≤ g.rcu_idx ∧ th.oldctr ≤ th.ctr) ∧
  (th.flips = 2 → th.ctr - th.oldctr < 2)

/-- The invariant of the machine. -/
structure Inv (s : State) : Prop where
  wr_ok : ∀ t, WrOK s.g (s.thr t)
  rd_ok : ∀ t, RdOK s.g t (s.thr t)
  fl_ok : ∀ t, FlOK s.g (s.thr t)
  uniq : ∀ t u, holdsLock (s.thr t).wr = true → holdsLock (s.thr u).wr = true → t = u
  disj : ∀ a b, a ≠ b → 1 ≤ (s.thr a).flips → 1 ≤ (s.thr b).flips →
    (s.thr a).ctr + (s.thr a).flips ≤ (s.thr b).ctr ∨
    (s.thr b).ctr + (s.thr b).flips ≤ (s.thr a).ctr

/-! ## Vocabulary of the statements -/

/-- A state is reachable when some schedule leads to it from an initial state. -/
def Reachable (n : Nat) (s : State) : Prop := ∃ v0 σ, s = exec n (init v0) σ

/-- Thread `w` advances by one step inside `synchronize_rcu`. -/
def sync (n : Nat) (s : State) (w : Nat) : State := step n s (w, Op.synchronize_rcu)

/-- The state `s` with the per-thread counters replaced by `f`. -/
def withCounters (s : State) (f : Nat → Nat → Int) : State :=
  { g := { rcu_idx := s.g.rcu_idx, rcu_gp_lock := s.g.rcu_gp_lock, rcu_refcnt := f },
    thr := s.thr }

/-- The state `s` with the private state of thread `w` replaced by `th`. -/
def setThr (s : State) (w : Nat) (th : Thread) : State :=
  { g := s.g, thr := Function.update s.thr w th }

/-! ## Concrete states used as witnesses -/

/-- Thread 1 snapshots index 0, thread 0 then runs two whole calls of
`synchronize_rcu` (index 0 to 4), and thread 1 takes the lock. -/
def stateC4 : State :=
  exec 2 (init 0)
    ((1, Op.synchronize_rcu) :: List.replicate 24 (0, Op.synchronize_rcu) ++
      [(1, Op.synchronize_rcu)])

/-- One thread, about to make the first store of its call. -/
def stateC10 : State := exec 1 (init 0) (List.replicate 3 (0, Op.synchronize_rcu))

/-! ## A call running alone -/

/-- Index 0; thread 0 (A) has run `rcu_read_lock` and is in its critical
section. -/
def scenA : State := exec 2 (init 0) (List.replicate 2 (0, Op.rcu_read_lock))

/-- Thread 1 (B) has called `synchronize_rcu`, taken the lock, read `ctr` and
made its first store. -/
def scenWait : State := exec 2 scenA (List.replicate 4 (1, Op.synchronize_rcu))

/-- Thread A has then run `rcu_read_unlock`. -/
def scenFree : State := step 2 scenWait (0, Op.rcu_read_unlock)

/-- Thread B has then tested both threads: it stands at the end of its first
pass, before the test of line 74. -/
def scenDecide : State := exec 2 scenFree (List.replicate 2 (1, Op.synchronize_rcu))

/-- Thread B has taken the branch of line 74 and made its second store. -/
def scenSecond : State := exec 2 scenDecide (List.replicate 2 (1, Op.synchronize_rcu))

/-- Thread B has tested both threads again, left the loop and unlocked. -/
def scenEnd : State := exec 2 scenSecond (List.replicate 4 (1, Op.synchronize_rcu))

/-! ## Batches of calls -/

/-- The scheduling step `l` from `s` is a call of `synchronize_rcu`: it takes
the snapshot `oldctr`. -/
def isCall (n : Nat) (s : State) (l : Nat × Op) : Bool :=
  decide ((s.thr l.1).wr = WrPC.idle) &&
  decide (((step n s l).thr l.1).wr = WrPC.snapshotted)

/-- Every call of `synchronize_rcu` made along the schedule `σ` from `s` takes
its snapshot while the index still has the value `v0`, that is, before the
first flip. -/
def callsAt (n : Nat) (v0 : Int) : State → List (Nat × Op) → Bool
  | _, [] => true
  | s, l :: σ =>
      (!(isCall n s l) || decide (s.g.rcu_idx = v0)) && callsAt n v0 (step n s l) σ

/-- While all snapshots are taken at `v0`: the index is at most `v0 + 3`, and
every thread that is in a call, or has flipped in its last call, has
`oldctr = v0`. -/
def Batch (v0 : Int) (s : State) : Prop :=
  s.g.rcu_idx ≤ v0 + 3 ∧
  ∀ t, ((s.thr t).wr ≠ WrPC.idle ∨ 1 ≤ (s.thr t).flips) → (s.thr t).oldctr = v0

/-- Two threads call `synchronize_rcu`; both take their snapshot of index 0
before either takes the lock; thread 0 then runs its whole call (11 more
steps), and thread 1 after it (7 more steps). -/
def schedBatch : List (Nat × Op) :=
  [(0, Op.synchronize_rcu), (1, Op.synchronize_rcu)] ++
    List.replicate 11 (0, Op.synchronize_rcu) ++ List.replicate 7 (1, Op.synchronize_rcu)

/-- Two threads call `synchronize_rcu` and no thread ever reads: thread 0
snapshots index 0, takes the lock and makes its first store (4 steps); thread 1
then takes its snapshot (index 1); thread 0 finishes its call (8 steps); thread
1 runs the rest of its call (11 steps). -/
def schedOverlap : List (Nat × Op) :=
  List.replicate 4 (0, Op.synchronize_rcu) ++ [(1, Op.synchronize_rcu)] ++
    List.replicate 8 (0, Op.synchronize_rcu) ++ List.replicate 11 (1, Op.synchronize_rcu)

/-! ## A call that cannot return while a critical section stays open -/

/-- Program points at which a thread is outside the lock, or inside a wait
loop that has not yet passed thread `r`. -/
def Waiting (r : Nat) : WrPC → Prop
  | WrPC.idle => True
  | WrPC.snapshotted => True
  | WrPC.fcwPoll _ _ p => p ≤ r
  | _ => False

/-- The situation of a call of `synchronize_rcu` by thread `w`, with snapshot
`v`, while the critical section of thread `r` on slot `i`, open when the
snapshot was taken, is still open. `c` is the one of `v`, `v + 1` whose low bit
is `i`: the pass `flip_counter_and_wait(c)` waits on the slot of `r`. The index
cannot get past `c + 1`, and once it is `c + 1` the lock holder is inside a
wait loop that cannot pass `r`; the caller `w` cannot reach a return. -/
structure Stuck (n r i w : Nat) (v c : Int) (s : State) : Prop where
  reg : r < n
  incs : (s.thr r).rd = RdPC.inCS i
  slot : slotOf c = i
  lo : v ≤ c
  hi : c ≤ v + 1
  idx_le : s.g.rcu_idx ≤ c + 1
  old : (s.thr w).oldctr = v
  busy : (s.thr w).wr ≠ WrPC.idle ∧ (s.thr w).wr ≠ WrPC.early ∧ (s.thr w).wr ≠ WrPC.unlock
  wait : s.g.rcu_idx = c + 1 → s.g.rcu_gp_lock = true ∧ ∀ u, Waiting r (s.thr u).wr

/-- The rest of the scenario after the call of thread 1: it takes the lock,
reads `ctr` and flips; thread 0 leaves its critical section; thread 1 finishes
its call. -/
def schedGrace : List (Nat × Op) :=
  List.replicate 3 (1, Op.synchronize_rcu) ++ [(0, Op.rcu_read_unlock)] ++
    List.replicate 8 (1, Op.synchronize_rcu)

/-! # Theorems -/

/-! ## Every machine step is an atomic action -/

theorem rcu_read_lock_spec (n t : Nat) (g : Shared) (th : Thread) :
    LStep n t g th (rcu_read_lock t g th).1 (rcu_read_lock t g th).2 := by
  obtain ⟨rd, wr, oc, c, fl⟩ := th
  cases wr <;> cases rd
  all_goals first
    | exact LStep.stutter _ _
    | exact LStep.rlFetch _ _ rfl rfl
    | exact LStep.rlInc _ _ _ rfl rfl

theorem rcu_read_unlock_spec (n t : Nat) (g : Shared) (th : Thread) :
    LStep n t g th (rcu_read_unlock t g th).1 (rcu_read_unlock t g th).2 := by
  obtain ⟨rd, wr, oc, c, fl⟩ := th
  cases wr <;> cases rd
  all_goals first
    | exact LStep.stutter _ _
    | exact LStep.ruDec _ _ _ rfl rfl

theorem synchronize_rcu_spec (n t : Nat) (g : Shared) (th : Thread) :
    LStep n t g th (synchronize_rcu n g th).1 (synchronize_rcu n g th).2 := by
  obtain ⟨rd, wr, oc, c, fl⟩ := th
  cases wr with
  | idle =>
      cases rd
      · exact LStep.call _ _ rfl (by simp)
      · exact LStep.stutter _ _
      · exact LStep.call _ _ rfl (by simp)
  | snapshotted =>
      cases hl : g.rcu_gp_lock
      · simpa [synchronize_rcu, hl] using
          LStep.acquire (n := n) (t := t) g ⟨rd, _, oc, c, fl⟩ rfl hl
      · simpa [synchronize_rcu, hl] using LStep.stutter (n := n) (t := t) g ⟨rd, _, oc, c, fl⟩
  | locked =>
      by_cases h : g.rcu_idx - oc ≥ 3
      · simpa [synchronize_rcu, h] using
          LStep.readEarly (n := n) (t := t) g ⟨rd, _, oc, c, fl⟩ rfl h
      · simpa [synchronize_rcu, h] using
          LStep.readFlip (n := n) (t := t) g ⟨rd, _, oc, c, fl⟩ rfl (by simpa using h)
  | early => exact LStep.earlyRet _ _ rfl
  | unlock => exact LStep.ret _ _ rfl
  | fcwStore b c0 =>
      cases b <;> exact LStep.store _ _ _ c0 rfl
  | fcwPoll b i p =>
      cases b
      · by_cases hp : p < n
        · by_cases hc : g.rcu_refcnt p i = 0
          · simpa [synchronize_rcu, flip_counter_and_wait, hp, hc] using
              LStep.pollNext (t := t) g ⟨rd, _, oc, c, fl⟩ false i p rfl hp hc
          · simpa [synchronize_rcu, flip_counter_and_wait, hp, hc] using
              LStep.stutter (n := n) (t := t) g ⟨rd, WrPC.fcwPoll false i p, oc, c, fl⟩
        · by_cases hd : c - oc < 2
          · simpa [synchronize_rcu, flip_counter_and_wait, hp, hd] using
              LStep.exitAgain (t := t) g ⟨rd, _, oc, c, fl⟩ i p rfl hp hd
          · simpa [synchronize_rcu, flip_counter_and_wait, hp, hd] using
              LStep.exitDone (t := t) g ⟨rd, _, oc, c, fl⟩ i p rfl hp hd
      · by_cases hp : p < n
        · by_cases hc : g.rcu_refcnt p i = 0
          · simpa [synchronize_rcu, flip_counter_and_wait, hp, hc] using
              LStep.pollNext (t := t) g ⟨rd, _, oc, c, fl⟩ true i p rfl hp hc
          · simpa [synchronize_rcu, flip_counter_and_wait, hp, hc] using
              LStep.stutter (n := n) (t := t) g ⟨rd, WrPC.fcwPoll true i p, oc, c, fl⟩
        · simpa [synchronize_rcu, flip_counter_and_wait, hp] using
            LStep.exitSecond (t := t) g ⟨rd, _, oc, c, fl⟩ i p rfl hp

theorem runOp_spec (n : Nat) (o : Op) (t : Nat) (g : Shared) (th : Thread) :
    LStep n t g th (runOp n o t g th).1 (runOp n o t g th).2 := by
  cases o
  · exact rcu_read_lock_spec n t g th
  · exact rcu_read_unlock_spec n t g th
  · exact synchronize_rcu_spec n t g th

theorem step_spec (n : Nat) (s : State) (l : Nat × Op) :
    ∃ g' th', LStep n l.1 s.g (s.thr l.1) g' th' ∧
      step n s l = { g := g', thr := Function.update s.thr l.1 th' } := by
  unfold step
  by_cases h : l.1 < n
  · exact ⟨_, _, runOp_spec n l.2 l.1 s.g (s.thr l.1), by simp [h]⟩
  · exact ⟨s.g, s.thr l.1, LStep.stutter _ _, by simp [h]⟩

/-! ## Preservation of the invariant -/

theorem slotOf_lt (c : Int) : slotOf c < 2 := by
  unfold slotOf; omega

theorem ldiff_one (m : Nat) : Nat.ldiff 1 m = (m + 1) % 2 := by
  apply Nat.eq_of_testBit_eq
  intro k
  rw [Nat.testBit_ldiff]
  cases k with
  | zero =>
    simp only [Nat.testBit_zero]
    rcases Nat.mod_two_eq_zero_or_one m with h | h <;> simp [h, Nat.add_mod]
  | succ k =>
    have h1 : Nat.testBit 1 (k + 1) = false := by
      simp [Nat.testBit_succ]
    have h2 : Nat.testBit ((m + 1) % 2) (k + 1) = false := by
      rcases Nat.mod_two_eq_zero_or_one (m + 1) with h | h <;> simp [h, Nat.testBit_succ]
    rw [h1, h2]; rfl

/-- The slot `slotOf c` is the C expression `c & 0x1` on two's-complement
integers. -/
theorem slotOf_eq_land (c : Int) : slotOf c = (Int.land c 1).toNat := by
  unfold slotOf
  cases c with
  | ofNat m =>
    show ((m : Int) % 2).toNat = (Int.land (Int.ofNat m) (Int.ofNat 1)).toNat
    simp only [Int.land, Nat.and_one_is_mod, Int.toNat_ofNat]
    omega
  | negSucc m =>
    show (Int.negSucc m % 2).toNat = (Int.land (Int.negSucc m) (Int.ofNat 1)).toNat
    simp only [Int.land]
    rw [ldiff_one]
    simp only [Int.toNat_ofNat]
    have : Int.negSucc m = -((m : Int) + 1) := by simp [Int.negSucc_eq]
    rw [this]
    omega

/-- Every atomic action preserves the facts attached to the program points of
`synchronize_rcu`. -/
theorem wr_ok_lstep {n t : Nat} {s : State} {g' : Shared} {th' : Thread}
    (hI : Inv s) (h : LStep n t s.g (s.thr t) g' th') :
    ∀ u, WrOK g' (Function.update s.thr t th' u) := by
  intro u
  have hwt := hI.wr_ok t
  have hft := hI.fl_ok t
  by_cases hu : u = t
  · subst hu
    rw [Function.update_same]
    cases h <;> simp_all [WrOK] <;> omega
  · rw [Function.update_noteq hu]
    have hwu := hI.wr_ok u
    have hun := hI.uniq u t
    cases h <;> first | exact hwu | skip
    all_goals
      rename_i hpc
      simp only [hpc, holdsLock, forall_true_left] at hun
      simp only [WrOK, hpc] at hwt
      revert hwu hun
      unfold WrOK
      cases (s.thr u).wr <;> simp_all [holdsLock] <;> omega

/-- Every atomic action keeps the counters in agreement with the positions of
the readers. -/
theorem rd_ok_lstep {n t : Nat} {s : State} {g' : Shared} {th' : Thread}
    (hI : Inv s) (h : LStep n t s.g (s.thr t) g' th') :
    ∀ u, RdOK g' u (Function.update s.thr t th' u) := by
  intro u
  have hrt := hI.rd_ok t
  by_cases hu : u = t
  · subst hu
    rw [Function.update_same]
    have := slotOf_lt s.g.rcu_idx
    cases h with
    | rlInc i hw hr =>
      simp only [RdOK, hr] at hrt ⊢
      obtain ⟨hi, h0, h1⟩ := hrt
      have : i = 0 ∨ i = 1 := by omega
      rcases this with rfl | rfl <;> simp [bump, h0, h1]
    | ruDec i hw hr =>
      simp only [RdOK, hr] at hrt ⊢
      obtain ⟨hi, h0, h1⟩ := hrt
      have : i = 0 ∨ i = 1 := by omega
      rcases this with rfl | rfl <;> simp_all [bump]
    | _ => simp_all [RdOK]
  · rw [Function.update_noteq hu]
    have hru := hI.rd_ok u
    cases h <;> first | exact hru | skip
    all_goals
      revert hru
      unfold RdOK
      cases (s.thr u).rd <;> simp_all [bump]

theorem fl_ok_lstep {n t : Nat} {s : State} {g' : Shared} {th' : Thread}
    (hI : Inv s) (h : LStep n t s.g (s.thr t) g' th') :
    ∀ u, FlOK g' (Function.update s.thr t th' u) := by
  intro u
  have hwt := hI.wr_ok t
  have hft := hI.fl_ok t
  by_cases hu : u = t
  · subst hu
    rw [Function.update_same]
    cases h with
    | store b c hpc =>
      simp only [WrOK, hpc] at hwt
      unfold FlOK at hft ⊢
      cases b <;> simp_all
      omega
    | _ => simp_all [WrOK, FlOK]
  · rw [Function.update_noteq hu]
    have hfu := hI.fl_ok u
    cases h <;> first | exact hfu | skip
    all_goals
      rename_i hpc
      simp only [WrOK, hpc] at hwt
      revert hfu
      unfold FlOK
      simp_all
      omega

/-- Mutual exclusion: at most one thread stands between `spin_lock` and
`spin_unlock`. -/
theorem uniq_lstep {n t : Nat} {s : State} {g' : Shared} {th' : Thread}
    (hI : Inv s) (h : LStep n t s.g (s.thr t) g' th') :
    ∀ a b, holdsLock (Function.update s.thr t th' a).wr = true →
      holdsLock (Function.update s.thr t th' b).wr = true → a = b := by
  have key : ∀ b, b ≠ t → holdsLock th'.wr = true →
      holdsLock (s.thr b).wr = true → False := by
    intro b hb h1 h2
    have hwb := hI.wr_ok b
    have htb := hI.uniq t b
    have hlb : s.g.rcu_gp_lock = true := by
      revert hwb h2; unfold WrOK
      cases (s.thr b).wr <;> simp +contextual [holdsLock]
    cases h <;> simp_all [holdsLock]
  intro a b
  by_cases ha : a = t <;> by_cases hb : b = t
  · intros; rw [ha, hb]
  · subst ha
    rw [Function.update_same, Function.update_noteq hb]
    intro h1 h2; exact (key b hb h1 h2).elim
  · subst hb
    rw [Function.update_same, Function.update_noteq ha]
    intro h1 h2; exact (key a ha h2 h1).elim
  · rw [Function.update_noteq ha, Function.update_noteq hb]; exact hI.uniq a b

/-- The flips made by two different threads never overlap. -/
theorem disj_lstep {n t : Nat} {s : State} {g' : Shared} {th' : Thread}
    (hI : Inv s) (h : LStep n t s.g (s.thr t) g' th') :
    ∀ a b, a ≠ b → 1 ≤ (Function.update s.thr t th' a).flips →
      1 ≤ (Function.update s.thr t th' b).flips →
      (Function.update s.thr t th' a).ctr + (Function.update s.thr t th' a).flips
          ≤ (Function.update s.thr t th' b).ctr ∨
      (Function.update s.thr t th' b).ctr + (Function.update s.thr t th' b).flips
          ≤ (Function.update s.thr t th' a).ctr := by
  have key : ∀ b, b ≠ t → 1 ≤ th'.flips → 1 ≤ (s.thr b).flips →
      th'.ctr + th'.flips ≤ (s.thr b).ctr ∨ (s.thr b).ctr + (s.thr b).flips ≤ th'.ctr := by
    intro b hb
    have hwt := hI.wr_ok t
    have hd := hI.disj t b (Ne.symm hb)
    have hfb := hI.fl_ok b
    unfold FlOK at hfb
    cases h with
    | store c0 c hpc =>
      simp only [WrOK, hpc] at hwt
      cases c0 <;> simp_all
      omega
    | _ => simp_all [WrOK]
  intro a b hab
  by_cases ha : a = t <;> by_cases hb : b = t
  · exact absurd (ha.trans hb.symm) hab
  · subst ha
    rw [Function.update_same, Function.update_noteq hb]
    exact key b hb
  · subst hb
    rw [Function.update_same, Function.update_noteq ha]
    intro h1 h2; exact (key a ha h2 h1).symm
  · rw [Function.update_noteq ha, Function.update_noteq hb]; exact hI.disj a b hab

theorem inv_lstep {n t : Nat} {s : State} {g' : Shared} {th' : Thread}
    (hI : Inv s) (h : LStep n t s.g (s.thr t) g' th') :
    Inv { g := g', thr := Function.update s.thr t th' } :=
  ⟨wr_ok_lstep hI h, rd_ok_lstep hI h, fl_ok_lstep hI h, uniq_lstep hI h, disj_lstep hI h⟩

theorem inv_step (n : Nat) {s : State} (hI : Inv s) (l : Nat × Op) : Inv (step n s l) := by
  obtain ⟨g', th', h, e⟩ := step_spec n s l
  rw [e]; exact inv_lstep hI h

theorem inv_init (v0 : Int) : Inv (init v0) := by
  constructor <;> intros <;> simp_all [init, WrOK, RdOK, FlOK, holdsLock]

theorem exec_nil (n : Nat) (s : State) : exec n s [] = s := rfl

theorem exec_cons (n : Nat) (s : State) (l : Nat × Op) (σ : List (Nat × Op)) :
    exec n s (l :: σ) = exec n (step n s l) σ := rfl

theorem exec_append (n : Nat) (s : State) (σ τ : List (Nat × Op)) :
    exec n s (σ ++ τ) = exec n (exec n s σ) τ := by
  simp [exec, List.foldl_append]

/-- The invariant holds along every schedule. -/
theorem inv_exec (n : Nat) {s : State} (hI : Inv s) (σ : List (Nat × Op)) :
    Inv (exec n s σ) := by
  induction σ generalizing s with
  | nil => exact hI
  | cons l σ ih => exact ih (inv_step n hI l)

/-! ## Basic facts about steps and reachable states -/

theorem Reachable.inv {n : Nat} {s : State} (h : Reachable n s) : Inv s := by
  obtain ⟨v0, σ, rfl⟩ := h
  exact inv_exec n (inv_init v0) σ

theorem Reachable.step {n : Nat} {s : State} (h : Reachable n s) (l : Nat × Op) :
    Reachable n (step n s l) := by
  obtain ⟨v0, σ, rfl⟩ := h
  exact ⟨v0, σ ++ [l], by simp [exec_append, exec_cons, exec_nil]⟩

theorem Reachable.exec {n : Nat} {s : State} (h : Reachable n s) (τ : List (Nat × Op)) :
    Reachable n (exec n s τ) := by
  obtain ⟨v0, σ, rfl⟩ := h
  exact ⟨v0, σ ++ τ, by simp [exec_append]⟩

theorem step_thr_ne (n : Nat) (s : State) (l : Nat × Op) {u : Nat} (h : u ≠ l.1) :
    (step n s l).thr u = s.thr u := by
  unfold step
  split
  · simp [Function.update_noteq h]
  · rfl

theorem step_g (n : Nat) (s : State) (t : Nat) (o : Op) (h : t < n) :
    (step n s (t, o)).g = (runOp n o t s.g (s.thr t)).1 := by
  simp [step, h]

theorem step_ge (n : Nat) (s : State) (l : Nat × Op) (h : ¬ l.1 < n) : step n s l = s := by
  simp [step, h]

theorem rcu_read_lock_idx (t : Nat) (g : Shared) (th : Thread) :
    (rcu_read_lock t g th).1.rcu_idx = g.rcu_idx ∧
    (rcu_read_lock t g th).1.rcu_gp_lock = g.rcu_gp_lock ∧
    (rcu_read_lock t g th).2.wr = th.wr := by
  obtain ⟨rd, wr, oc, c, fl⟩ := th
  cases wr <;> cases rd <;> simp [rcu_read_lock]

theorem rcu_read_unlock_idx (t : Nat) (g : Shared) (th : Thread) :
    (rcu_read_unlock t g th).1.rcu_idx = g.rcu_idx ∧
    (rcu_read_unlock t g th).1.rcu_gp_lock = g.rcu_gp_lock ∧
    (rcu_read_unlock t g th).2.wr = th.wr := by
  obtain ⟨rd, wr, oc, c, fl⟩ := th
  cases wr <;> cases rd <;> simp [rcu_read_unlock]

/-- The index never decreases along a step from a state satisfying the invariant. -/
theorem idx_mono_step (n : Nat) {s : State} (hI : Inv s) (l : Nat × Op) :
    s.g.rcu_idx ≤ (step n s l).g.rcu_idx := by
  obtain ⟨g', th', h, e⟩ := step_spec n s l
  rw [e]
  have hw := hI.wr_ok l.1
  cases h with
  | store b c hpc => simp_all [WrOK]
  | _ => simp

theorem idx_mono_exec (n : Nat) {s : State} (hI : Inv s) (τ : List (Nat × Op)) :
    s.g.rcu_idx ≤ (exec n s τ).g.rcu_idx := by
  induction τ generalizing s with
  | nil => exact le_refl _
  | cons l τ ih => exact le_trans (idx_mono_step n hI l) (ih (inv_step n hI l))


theorem exec_thr_others (n w : Nat) (τ : List (Nat × Op)) (s1 : State)
    (h : ∀ l ∈ τ, l.1 ≠ w) : (exec n s1 τ).thr w = s1.thr w := by
  induction τ generalizing s1 with
  | nil => rfl
  | cons l τ ih =>
    rw [exec_cons, ih _ (fun l hl => h l (List.mem_cons_of_mem _ hl))]
    exact step_thr_ne n s1 l (Ne.symm (h l (List.mem_cons_self _ _)))

/-! ## The steps of `synchronize_rcu`, one program point at a time -/

theorem sync_call {n : Nat} {s : State} {w : Nat} (hw : w < n)
    (hpc : (s.thr w).wr = WrPC.idle)
    (hrd : ∀ i, (s.thr w).rd ≠ RdPC.fetched i) :
    sync n s w = setThr s w
      { s.thr w with wr := WrPC.snapshotted, oldctr := s.g.rcu_idx, flips := 0 } := by
  have key : synchronize_rcu n s.g (s.thr w) = (s.g,
      { s.thr w with wr := WrPC.snapshotted, oldctr := s.g.rcu_idx, flips := 0 }) := by
    generalize s.thr w = th at hpc hrd
    obtain ⟨rd, wr, oc, c, fl⟩ := th
    simp only at hpc hrd
    subst hpc
    cases rd
    · rfl
    · exact absurd rfl (hrd _)
    · rfl
  simp [sync, setThr, step, hw, runOp, key]

theorem sync_spin_lock {n : Nat} {s : State} {w : Nat} (hpc : (s.thr w).wr = WrPC.snapshotted)
    (hl : s.g.rcu_gp_lock = true) : sync n s w = s := by
  unfold sync step
  split
  · simp [runOp, synchronize_rcu, hpc, hl]
  · rfl

theorem sync_read_early {n : Nat} {s : State} {w : Nat} (hw : w < n)
    (hpc : (s.thr w).wr = WrPC.locked)
    (hd : s.g.rcu_idx - (s.thr w).oldctr ≥ 3) :
    sync n s w = setThr s w { s.thr w with ctr := s.g.rcu_idx, wr := WrPC.early } := by
  simp [sync, setThr, step, hw, runOp, synchronize_rcu, hpc, hd]

theorem sync_early {n : Nat} {s : State} {w : Nat} (hw : w < n)
    (hpc : (s.thr w).wr = WrPC.early) :
    sync n s w = { g := { s.g with rcu_gp_lock := false },
                   thr := Function.update s.thr w { s.thr w with wr := WrPC.idle } } := by
  simp [sync, step, hw, runOp, synchronize_rcu, hpc]

theorem sync_poll_spin {n : Nat} {s : State} {w : Nat} {b : Bool} {i p : Nat}
    (hpc : (s.thr w).wr = WrPC.fcwPoll b i p) (hp : p < n)
    (hc : s.g.rcu_refcnt p i ≠ 0) : sync n s w = s := by
  unfold sync step
  split
  · cases b <;> simp [runOp, synchronize_rcu, flip_counter_and_wait, hpc, hp, hc]
  · rfl

theorem exec_replicate_fixed (n : Nat) (s : State) (l : Nat × Op) (h : step n s l = s) :
    ∀ k, exec n s (List.replicate k l) = s := by
  intro k
  induction k with
  | zero => rfl
  | succ k ih => rw [List.replicate_succ, exec_cons, h, ih]

/-- A step keeps the batch bound, provided that a call made by this step takes
its snapshot at `v0`. -/
theorem batch_step (n : Nat) (v0 : Int) (s : State) (l : Nat × Op) (hI : Inv s)
    (hB : Batch v0 s) (hc : isCall n s l = true → s.g.rcu_idx = v0) :
    Batch v0 (step n s l) := by
  obtain ⟨g', th', h, e⟩ := step_spec n s l
  have hth : (step n s l).thr l.1 = th' := by rw [e]; simp
  rw [e]
  have hw := hI.wr_ok l.1
  have hBt := hB.2 l.1
  have hidx := hB.1
  unfold isCall at hc
  rw [hth] at hc
  constructor
  · cases h with
    | store b c hpc =>
      simp only [WrOK, hpc] at hw
      simp only [hpc] at hBt
      cases b <;> simp_all <;> omega
    | _ => simp_all
  · intro u
    by_cases hu : u = l.1
    · subst hu
      simp only [Function.update_same]
      cases h <;> simp_all
    · simp only [Function.update_noteq hu]
      exact hB.2 u

theorem batch_exec (n : Nat) (v0 : Int) (σ : List (Nat × Op)) :
    ∀ s, Inv s → Batch v0 s → callsAt n v0 s σ = true → Batch v0 (exec n s σ) := by
  induction σ with
  | nil => intro s _ hB _; exact hB
  | cons l σ ih =>
    intro s hI hB hc
    simp only [callsAt, Bool.and_eq_true, Bool.or_eq_true, Bool.not_eq_true',
      decide_eq_true_eq] at hc
    rw [exec_cons]
    refine ih _ (inv_step n hI l) (batch_step n v0 s l hI hB ?_) hc.2
    intro h
    rcases hc.1 with h' | h'
    · rw [h] at h'; exact absurd h' (by simp)
    · exact h'

theorem batch_init (v0 : Int) : Batch v0 (init v0) := by
  constructor
  · simp [init]
  · intro t h; simp [init] at h

/-! ## A call cannot return while a critical section open at the call stays open -/

/-- While the critical section of `r` stays open, the situation `Stuck` is
preserved by every atomic action: the caller `w` cannot get to a return. -/
theorem stuck_lstep {n r i w t : Nat} {v c : Int} {s : State} {g' : Shared} {th' : Thread}
    (hI : Inv s) (hJ : Stuck n r i w v c s) (h : LStep n t s.g (s.thr t) g' th')
    (hrd : (Function.update s.thr t th' r).rd = RdPC.inCS i) :
    Stuck n r i w v c { g := g', thr := Function.update s.thr t th' } := by
  have hwt := hI.wr_ok t
  have hww := hI.wr_ok w
  have hrr := hI.rd_ok r
  simp only [RdOK, hJ.incs] at hrr
  obtain ⟨hreg, hincs, hslot, hlo, hhi, hidx, hold, ⟨hb1, hb2, hb3⟩, hwait⟩ := hJ
  refine ⟨hreg, hrd, hslot, hlo, hhi, ?_, ?_, ?_, ?_⟩
  · -- the index stays at most c + 1
    cases h with
    | store b c0 hpc =>
      simp only [WrOK, hpc] at hwt
      have : s.g.rcu_idx ≠ c + 1 := by
        intro he
        have := (hwait he).2 t
        simp [hpc, Waiting] at this
      simp only
      omega
    | _ => exact hidx
  · -- the snapshot of w is unchanged
    by_cases hwt' : w = t
    · subst hwt'
      simp only [Function.update_same]
      cases h <;> simp_all
    · simp only [Function.update_noteq hwt']; exact hold
  · -- w cannot reach a return
    by_cases hwt' : w = t
    · subst hwt'
      simp only [Function.update_same]
      cases h with
      | readEarly hpc hd => exfalso; omega
      | exitDone j p hpc hp hd =>
        exfalso
        simp only [WrOK, hpc] at hww
        have := hww.2.2.1 trivial
        omega
      | exitSecond j p hpc hp =>
        exfalso
        simp only [WrOK, hpc] at hww
        have h1 := hww.2.2.2 trivial
        have h2 := (hwait (by omega)).2 w
        simp only [hpc, Waiting] at h2
        omega
      | _ => simp_all
    · simp only [Function.update_noteq hwt']; exact ⟨hb1, hb2, hb3⟩
  · -- once the index is c + 1, nobody gets past r
    have hnl : ∀ pc, holdsLock pc = false → Waiting r pc := by
      intro pc; cases pc <;> simp [holdsLock, Waiting]
    cases h with
    | store b c0 hpc =>
      intro he
      simp only at he
      simp only [WrOK, hpc] at hwt
      refine ⟨hwt.1, fun u => ?_⟩
      by_cases hu : u = t
      · subst hu; simp [Waiting]
      · simp only [Function.update_noteq hu]
        apply hnl
        cases hh : holdsLock (s.thr u).wr
        · rfl
        · exact absurd (hI.uniq u t hh (by simp [hpc, holdsLock])) hu
    | pollNext b j p hpc hp hc =>
      intro he
      simp only at he
      have hw0 := (hwait he).2 t
      simp only [hpc, Waiting] at hw0
      simp only [WrOK, hpc] at hwt
      have hj : j = i := by
        cases b
        · have := hwt.2.2.1 rfl
          rw [this.2.1, ← hslot]; congr 1; omega
        · have := hwt.2.2.2 rfl
          rw [this.2.1, ← hslot]; congr 1; omega
      have hpr : p ≠ r := by
        rintro rfl
        rw [hj, hrr.2.1] at hc
        exact absurd hc (by decide)
      refine ⟨(hwait he).1, fun u => ?_⟩
      by_cases hu : u = t
      · subst hu; simp only [Function.update_same, Waiting]; omega
      · simp only [Function.update_noteq hu]; exact (hwait he).2 u
    | _ =>
      intro he
      simp only at he
      obtain ⟨hl0, hall⟩ := hwait he
      have hw0 := hall t
      refine ⟨?_, fun u => ?_⟩
      · simp_all [Waiting]
      · by_cases hu : u = t
        · subst hu
          simp only [Function.update_same]
          simp_all [Waiting] <;> omega
        · simp only [Function.update_noteq hu]; exact hall u

theorem rd_lstep {n r i t : Nat} {s : State} {g' : Shared} {th' : Thread}
    (hincs : (s.thr r).rd = RdPC.inCS i) (h : LStep n t s.g (s.thr t) g' th') :
    (Function.update s.thr t th' r).rd = RdPC.inCS i ∨
    (Function.update s.thr t th' r).rd = RdPC.out := by
  by_cases hr : r = t
  · subst hr
    simp only [Function.update_same]
    cases h <;> simp_all
  · simp only [Function.update_noteq hr]; exact Or.inl hincs

theorem busy_lstep {n w t : Nat} {s : State} {g' : Shared} {th' : Thread}
    (hb : (s.thr w).wr ≠ WrPC.idle ∧ (s.thr w).wr ≠ WrPC.early ∧ (s.thr w).wr ≠ WrPC.unlock)
    (h : LStep n t s.g (s.thr t) g' th') :
    (Function.update s.thr t th' w).wr ≠ WrPC.idle := by
  by_cases hw : w = t
  · subst hw
    simp only [Function.update_same]
    cases h <;> simp_all
  · simp only [Function.update_noteq hw]; exact hb.1

/-- From a `Stuck` situation, a schedule after which `w` has returned contains
a moment at which `r` has left its critical section, `w` being inside its call
up to that moment. -/
theorem stuck_exec {n r i w : Nat} {v c : Int} (τ : List (Nat × Op)) :
    ∀ s, Inv s → Stuck n r i w v c s → ((exec n s τ).thr w).wr = WrPC.idle →
      ∃ τ1 τ2, τ = τ1 ++ τ2 ∧ ((exec n s τ1).thr r).rd = RdPC.out ∧
        ∀ τa τb, τ1 = τa ++ τb → ((exec n s τa).thr w).wr ≠ WrPC.idle := by
  induction τ with
  | nil => intro s _ hJ h; exact absurd h hJ.busy.1
  | cons l τ ih =>
    intro s hI hJ hret
    obtain ⟨g', th', h, e⟩ := step_spec n s l
    rcases rd_lstep hJ.incs h with hin | hout
    · have hJ' := stuck_lstep hI hJ h hin
      rw [← e] at hJ'
      obtain ⟨τ1, τ2, e1, h1, h2⟩ := ih _ (inv_step n hI l) hJ' hret
      refine ⟨l :: τ1, τ2, by rw [e1]; rfl, h1, ?_⟩
      intro τa τb hab
      cases τa with
      | nil => exact hJ.busy.1
      | cons x τa =>
        simp only [List.cons_append, List.cons.injEq] at hab
        rw [← hab.1, exec_cons]
        exact h2 τa τb hab.2
    · refine ⟨[l], τ, rfl, ?_, ?_⟩
      · rw [exec_cons, exec_nil, e]; exact hout
      · intro τa τb hab
        cases τa with
        | nil => exact hJ.busy.1
        | cons x τa =>
          simp only [List.cons_append, List.cons.injEq] at hab
          have hnil : τa = [] := by
            have := hab.2
            cases τa with
            | nil => rfl
            | cons y τa => simp at this
          rw [← hab.1, hnil, exec_cons, exec_nil, e]
          exact busy_lstep hJ.busy h

theorem exec_thr_ge (n t : Nat) (ht : ¬ t < n) (σ : List (Nat × Op)) :
    ∀ s, (exec n s σ).thr t = s.thr t := by
  induction σ with
  | nil => intro s; rfl
  | cons l σ ih =>
    intro s
    rw [exec_cons, ih]
    by_cases hl : l.1 = t
    · rw [step_ge n s l (by rw [hl]; exact ht)]
    · exact step_thr_ne n s l (Ne.symm hl)

theorem reachable_registered {n : Nat} {s : State} (hs : Reachable n s) {r i : Nat}
    (h : (s.thr r).rd = RdPC.inCS i) : r < n := by
  by_contra hr
  obtain ⟨v0, σ, rfl⟩ := hs
  rw [exec_thr_ge n r hr σ] at h
  simp [init] at h

theorem slot_cases (v : Int) (i : Nat) (hi : i < 2) :
    slotOf v = i ∨ slotOf (v + 1) = i := by
  unfold slotOf
  omega

/-! # The claims -/

/-- C1. In every interleaving of reader and writer steps: if the critical
section of thread `r` is open (its counter is incremented) in a reachable state
in which thread `w` calls `synchronize_rcu` (the step takes the snapshot), then
in every continuation after which the call has returned, `r` has left that
critical section at a moment when the call was still in progress and had been
so ever since it started: the call returns only after the critical section
has exited. -/
theorem C1_grace_period (n : Nat) (s : State) (hs : Reachable n s) (r i w : Nat)
    (hcs : (s.thr r).rd = RdPC.inCS i)
    (hw : w < n) (hpc : (s.thr w).wr = WrPC.idle) (hrd : ∀ j, (s.thr w).rd ≠ RdPC.fetched j)
    (τ : List (Nat × Op))
    (hret : ((exec n (sync n s w) τ).thr w).wr = WrPC.idle) :
    ((sync n s w).thr w).wr = WrPC.snapshotted ∧
    ((sync n s w).thr r).rd = RdPC.inCS i ∧
    ∃ τ1 τ2, τ = τ1 ++ τ2 ∧ ((exec n (sync n s w) τ1).thr r).rd = RdPC.out ∧
      ∀ τa τb, τ1 = τa ++ τb → ((exec n (sync n s w) τa).thr w).wr ≠ WrPC.idle := by
  have e0 := sync_call hw hpc hrd
  have hI := hs.inv
  have hI1 : Inv (sync n s w) := inv_step n hI _
  have hrr := hI.rd_ok r
  simp only [RdOK, hcs] at hrr
  have hcs1 : ((sync n s w).thr r).rd = RdPC.inCS i := by
    rw [e0]; unfold setThr
    by_cases hrw : r = w
    · subst hrw; simp [hcs]
    · simp [Function.update_noteq hrw, hcs]
  have hwr1 : ((sync n s w).thr w).wr = WrPC.snapshotted := by rw [e0]; simp [setThr]
  refine ⟨hwr1, hcs1, ?_⟩
  have hold1 : ((sync n s w).thr w).oldctr = s.g.rcu_idx := by rw [e0]; simp [setThr]
  have hidx1 : (sync n s w).g.rcu_idx = s.g.rcu_idx := by rw [e0]; rfl
  have key : ∀ c : Int, slotOf c = i → s.g.rcu_idx ≤ c → c ≤ s.g.rcu_idx + 1 →
      Stuck n r i w s.g.rcu_idx c (sync n s w) := by
    intro c hc h1 h2
    refine ⟨reachable_registered hs hcs, hcs1, hc, h1, h2, by omega, hold1,
      ⟨by simp [hwr1], by simp [hwr1], by simp [hwr1]⟩, fun h => by omega⟩
  rcases slot_cases s.g.rcu_idx i hrr.1 with hc | hc
  · exact stuck_exec τ _ hI1 (key _ hc (le_refl _) (by omega)) hret
  · exact stuck_exec τ _ hI1 (key _ hc (by omega) (le_refl _)) hret

/-- C2, counterexample. Two overlapping calls (both snapshots taken before
either caller takes the lock) perform three flips in all: the first caller
flips twice, the second finds `ctr - oldctr = 2` and flips once, so `rcu_idx`
advances from 0 to 3. When the second caller takes its snapshot after the
first flip of the first caller, the two overlapping calls perform four
flips. -/
theorem C2_batch_counterexample :
    -- both calls have taken their snapshot while nobody holds the lock
    ((exec 2 (init 0) (schedBatch.take 2)).thr 0).wr = WrPC.snapshotted ∧
    ((exec 2 (init 0) (schedBatch.take 2)).thr 1).wr = WrPC.snapshotted ∧
    (exec 2 (init 0) (schedBatch.take 2)).g.rcu_gp_lock = false ∧
    -- both calls have returned
    ((exec 2 (init 0) schedBatch).thr 0).wr = WrPC.idle ∧
    ((exec 2 (init 0) schedBatch).thr 1).wr = WrPC.idle ∧
    -- three flips in all
    ((exec 2 (init 0) schedBatch).thr 0).flips = 2 ∧
    ((exec 2 (init 0) schedBatch).thr 1).flips = 1 ∧
    (exec 2 (init 0) schedBatch).g.rcu_idx = 3 ∧
    ¬ ((exec 2 (init 0) schedBatch).g.rcu_idx - (init 0).g.rcu_idx ≤ 2) ∧
    -- and four flips when the second snapshot is taken after the first flip
    (exec 2 (init 0) schedOverlap).g.rcu_idx = 4 := by
  decide

/-- C2, amended. For any number of threads and of calls of `synchronize_rcu`
that all take their snapshot before the first flip (while `rcu_idx` still has
its initial value), in any interleaving (reader steps included) the total
advance of `rcu_idx`, that is the total number of flips, is at most 3. -/
theorem C2_batch_amended (n : Nat) (v0 : Int) (σ : List (Nat × Op))
    (h : callsAt n v0 (init v0) σ = true) :
    v0 ≤ (exec n (init v0) σ).g.rcu_idx ∧ (exec n (init v0) σ).g.rcu_idx - v0 ≤ 3 := by
  have hB := batch_exec n v0 σ (init v0) (inv_init v0) (batch_init v0) h
  have hm := idx_mono_exec n (inv_init v0) σ
  simp only [init] at hm
  exact ⟨hm, by have := hB.1; omega⟩

/-- C3, counterexample. Two threads call `synchronize_rcu` concurrently with
no reader ever active, the second taking its snapshot while the first is
between its two flips: both callers then perform the full two-flip sequence
(index 0 to 4). -/
theorem C3_two_callers_counterexample :
    -- thread 1 takes its snapshot while thread 0 is inside its call
    ((exec 2 (init 0) (schedOverlap.take 4)).thr 0).wr = WrPC.fcwPoll false 0 0 ∧
    ((exec 2 (init 0) (schedOverlap.take 4)).thr 1).wr = WrPC.idle ∧
    ((exec 2 (init 0) (schedOverlap.take 5)).thr 1).wr = WrPC.snapshotted ∧
    -- no reader is ever active
    (∀ l ∈ schedOverlap, l.2 = Op.synchronize_rcu) ∧
    -- both calls return, each having made both of its flips
    ((exec 2 (init 0) schedOverlap).thr 0).wr = WrPC.idle ∧
    ((exec 2 (init 0) schedOverlap).thr 1).wr = WrPC.idle ∧
    ((exec 2 (init 0) schedOverlap).thr 0).flips = 2 ∧
    ((exec 2 (init 0) schedOverlap).thr 1).flips = 2 ∧
    (exec 2 (init 0) schedOverlap).g.rcu_idx = 4 := by
  decide

/-- C3, amended. When the calls of `synchronize_rcu` all take their snapshot
before the first flip, in every interleaving no two distinct threads have both
performed the full two-flip sequence: of two callers at most one flips twice,
and the other flips at most once. -/
theorem C3_two_callers_amended (n : Nat) (v0 : Int) (σ : List (Nat × Op))
    (h : callsAt n v0 (init v0) σ = true) (a b : Nat) (hab : a ≠ b) :
    ¬ (((exec n (init v0) σ).thr a).flips = 2 ∧ ((exec n (init v0) σ).thr b).flips = 2) := by
  have hB := batch_exec n v0 σ (init v0) (inv_init v0) (batch_init v0) h
  have hI := inv_exec n (inv_init v0) σ
  rintro ⟨ha, hb⟩
  have fa := hI.fl_ok a
  have fb := hI.fl_ok b
  have oa := hB.2 a (Or.inr (by omega))
  have ob := hB.2 b (Or.inr (by omega))
  have hd := hI.disj a b hab (by omega) (by omega)
  unfold FlOK at fa fb
  have fa2 := fa.2.1 (by omega)
  have fb2 := fb.2.1 (by omega)
  have fa3 := fa.2.2 ha
  have fb3 := fb.2.2 hb
  rw [ha, hb] at hd
  push_cast at hd
  omega

/-- C4. When a caller re-reads `rcu_idx` under the lock and finds
`ctr - oldctr >= 3`, that step changes no shared variable, stores nothing to
`rcu_idx` (`flips` stays 0), does not depend on the per-thread counters, and
takes the caller to the early exit; whatever the other threads do in between,
`rcu_idx` stays equal to the value read and the lock stays held until the
caller's next step, which returns with the lock released, `rcu_idx` still
equal to `ctr`, the counters untouched and unread. -/
theorem C4_early_return (n : Nat) (s : State) (w : Nat) (hs : Reachable n s) (hw : w < n)
    (hpc : (s.thr w).wr = WrPC.locked)
    (hd : s.g.rcu_idx - (s.thr w).oldctr ≥ 3) :
    ((sync n s w).g = s.g ∧ (∀ u, u ≠ w → (sync n s w).thr u = s.thr u) ∧
      ((sync n s w).thr w).wr = WrPC.early ∧ ((sync n s w).thr w).ctr = s.g.rcu_idx ∧
      ((sync n s w).thr w).flips = 0 ∧
      (∀ f, sync n (withCounters s f) w = withCounters (sync n s w) f)) ∧
    ∀ τ : List (Nat × Op), (∀ l ∈ τ, l.1 ≠ w) →
      ((exec n (sync n s w) τ).thr w).wr = WrPC.early ∧
      (exec n (sync n s w) τ).g.rcu_idx = s.g.rcu_idx ∧
      (exec n (sync n s w) τ).g.rcu_gp_lock = true ∧
      ((sync n (exec n (sync n s w) τ) w).thr w).wr = WrPC.idle ∧
      ((sync n (exec n (sync n s w) τ) w).thr w).flips = 0 ∧
      (sync n (exec n (sync n s w) τ) w).g.rcu_idx = s.g.rcu_idx ∧
      (sync n (exec n (sync n s w) τ) w).g.rcu_gp_lock = false ∧
      (sync n (exec n (sync n s w) τ) w).g.rcu_refcnt =
        (exec n (sync n s w) τ).g.rcu_refcnt ∧
      (∀ f, sync n (withCounters (exec n (sync n s w) τ) f) w =
        withCounters (sync n (exec n (sync n s w) τ) w) f) := by
  have hfl : (s.thr w).flips = 0 := by
    have := hs.inv.wr_ok w
    simp only [WrOK, hpc] at this
    exact this.2.2
  have e1 := sync_read_early hw hpc hd
  refine ⟨⟨by rw [e1]; rfl, fun u hu => by rw [e1]; simp [setThr, Function.update_noteq hu],
    by rw [e1]; simp [setThr], by rw [e1]; simp [setThr], by rw [e1]; simp [setThr, hfl], ?_⟩, ?_⟩
  · intro f
    rw [sync_read_early (s := withCounters s f) hw hpc hd, e1]; rfl
  intro τ hτ
  have hr1 : Reachable n (exec n (sync n s w) τ) := (hs.step _).exec τ
  have h3 : (exec n (sync n s w) τ).thr w = (sync n s w).thr w := exec_thr_others n w τ _ hτ
  generalize exec n (sync n s w) τ = s2 at hr1 h3 ⊢
  rw [e1] at h3
  simp only [setThr, Function.update_same] at h3
  have hpc2 : (s2.thr w).wr = WrPC.early := by rw [h3]
  have hwr := hr1.inv.wr_ok w
  simp only [WrOK, hpc2] at hwr
  have hc : (s2.thr w).ctr = s.g.rcu_idx := by rw [h3]
  have e3 := sync_early hw hpc2
  refine ⟨hpc2, by rw [hwr.2.1, hc], hwr.1, by rw [e3]; simp, by rw [e3]; simp [hwr.2.2.2],
    by rw [e3]; simp [hwr.2.1, hc], by rw [e3], by rw [e3], ?_⟩
  intro f
  rw [sync_early (s := withCounters s2 f) hw hpc2, e3]; rfl

/-- C6, counterexample. In the scenario itself, when thread B stands at the
end of its first pass and is about to evaluate the test of line 74, its locals
give `ctr - oldctr = 0`, not 1: `ctr` and `oldctr` were both read while the
index was 0 and the flip does not change `ctr`. -/
theorem C6_scenario_counterexample :
    (scenDecide.thr 1).wr = WrPC.fcwPoll false 0 2 ∧
    (scenDecide.thr 1).ctr - (scenDecide.thr 1).oldctr = 0 ∧
    ¬ ((scenDecide.thr 1).ctr - (scenDecide.thr 1).oldctr = 1) := by
  decide

/-- C6, amended. The scenario with the value of the test corrected: index 0,
A in its critical section with slot-0 count 1; B calls `synchronize_rcu`, flips
the index to 1 and waits on slot 0 of A, where no number of steps of B makes
progress while the count is 1; after A unlocks (count 0) B passes both
threads, evaluates line 74 with `ctr - oldctr = 0` (< 2), makes the second
flip (index 1 to 2), passes both threads on slot 1 without spinning, and
returns with the index equal to 2 and the lock released. -/
theorem C6_scenario_amended :
    -- A is in its critical section, index 0, slot-0 count 1
    (scenA.g.rcu_idx = 0 ∧ (scenA.thr 0).rd = RdPC.inCS 0 ∧ scenA.g.rcu_refcnt 0 0 = 1) ∧
    -- B flips the index to 1 and waits on slot 0 of A
    (scenWait.g.rcu_idx = 1 ∧ (scenWait.thr 1).wr = WrPC.fcwPoll false 0 0 ∧
      scenWait.g.rcu_refcnt 0 0 = 1) ∧
    -- the wait cannot complete: any number of steps of B leaves the state as it is
    (∀ k, exec 2 scenWait (List.replicate k (1, Op.synchronize_rcu)) = scenWait) ∧
    -- A unlocks, B passes both threads
    (scenFree.g.rcu_refcnt 0 0 = 0 ∧ (scenDecide.thr 1).wr = WrPC.fcwPoll false 0 2) ∧
    -- the test of line 74 sees `ctr - oldctr = 0` and B makes the second flip
    ((scenDecide.thr 1).ctr - (scenDecide.thr 1).oldctr = 0 ∧
      ((sync 2 scenDecide 1).thr 1).wr = WrPC.fcwStore true 1 ∧
      scenSecond.g.rcu_idx = 2 ∧ (scenSecond.thr 1).wr = WrPC.fcwPoll true 1 0) ∧
    -- the wait on slot 1 passes both threads at once
    (((sync 2 scenSecond 1).thr 1).wr = WrPC.fcwPoll true 1 1 ∧
      ((sync 2 (sync 2 scenSecond 1) 1).thr 1).wr = WrPC.fcwPoll true 1 2) ∧
    -- B returns with index 2
    ((scenEnd.thr 1).wr = WrPC.idle ∧ scenEnd.g.rcu_idx = 2 ∧
      scenEnd.g.rcu_gp_lock = false) := by
  refine ⟨by decide, by decide, ?_, by decide, by decide, by decide, by decide⟩
  exact exec_replicate_fixed 2 scenWait _
    (sync_poll_spin (n := 2) (s := scenWait) (w := 1) (b := false) (i := 0) (p := 0)
      (by decide) (by decide) (by decide))

/-- C8. Neither `flip_counter_and_wait` nor `synchronize_rcu` writes a
per-thread counter: a step of either leaves `rcu_refcnt` as it was, leaves the
private state of every other thread and the reader position of the caller as
they were, and in any schedule made of `synchronize_rcu` steps only (no reader
activity) every counter has the same value afterwards as before; the shared
variables a writer can change are `rcu_idx` and `rcu_gp_lock`. -/
theorem C8_writer_frame (n : Nat) (s : State) (w : Nat) :
    (∀ ret g th, (flip_counter_and_wait n ret g th).1.rcu_refcnt = g.rcu_refcnt) ∧
    (∀ g th, (synchronize_rcu n g th).1.rcu_refcnt = g.rcu_refcnt ∧
      (synchronize_rcu n g th).2.rd = th.rd) ∧
    (sync n s w).g.rcu_refcnt = s.g.rcu_refcnt ∧
    (∀ u, u ≠ w → (sync n s w).thr u = s.thr u) ∧
    ∀ σ : List (Nat × Op), (∀ l ∈ σ, l.2 = Op.synchronize_rcu) →
      (exec n s σ).g.rcu_refcnt = s.g.rcu_refcnt ∧
      ∀ u, ((exec n s σ).thr u).rd = (s.thr u).rd := by
  have hf : ∀ ret g th, (flip_counter_and_wait n ret g th).1.rcu_refcnt = g.rcu_refcnt ∧
      (flip_counter_and_wait n ret g th).2.rd = th.rd := by
    intro ret g th
    obtain ⟨rd, wr, oc, c, fl⟩ := th
    cases wr <;> simp only [flip_counter_and_wait] <;> (try split_ifs) <;> simp
  have hsy : ∀ g th, (synchronize_rcu n g th).1.rcu_refcnt = g.rcu_refcnt ∧
      (synchronize_rcu n g th).2.rd = th.rd := by
    intro g th
    obtain ⟨rd, wr, oc, c, fl⟩ := th
    cases wr with
    | idle => cases rd <;> exact ⟨rfl, rfl⟩
    | snapshotted => simp only [synchronize_rcu]; split_ifs <;> simp
    | locked => simp only [synchronize_rcu]; split_ifs <;> simp
    | early => exact ⟨rfl, rfl⟩
    | unlock => exact ⟨rfl, rfl⟩
    | fcwStore b c0 => cases b <;> exact hf _ _ _
    | fcwPoll b i p => cases b <;> exact hf _ _ _
  have hstep : ∀ (s : State) (w : Nat), (sync n s w).g.rcu_refcnt = s.g.rcu_refcnt ∧
      ∀ u, ((sync n s w).thr u).rd = (s.thr u).rd := by
    intro s w
    unfold sync step
    split
    · refine ⟨(hsy _ _).1, fun u => ?_⟩
      by_cases hu : u = w
      · subst hu; simp only [Function.update_same]; exact (hsy _ _).2
      · simp only [Function.update_noteq hu]
    · exact ⟨rfl, fun _ => rfl⟩
  refine ⟨fun ret g th => (hf ret g th).1, hsy, (hstep s w).1,
    fun u hu => step_thr_ne n s _ hu, ?_⟩
  intro σ
  induction σ generalizing s with
  | nil => intro _; exact ⟨rfl, fun _ => rfl⟩
  | cons l σ ih =>
    intro h
    have hl : l = (l.1, Op.synchronize_rcu) := by
      rw [← h l (List.mem_cons_self _ _)]
    have := ih (step n s l) (fun l hl => h l (List.mem_cons_of_mem _ hl))
    rw [exec_cons, this.1]
    have h2 := hstep s l.1
    unfold sync at h2
    rw [← hl] at h2
    exact ⟨h2.1, fun u => by rw [this.2 u, h2.2 u]⟩

/-- C10. In a reachable state, a scheduling step either leaves `rcu_idx`
unchanged or is a step of `synchronize_rcu` by a thread that holds the
grace-period lock (the lock is held and the thread stands between `spin_lock`
and `spin_unlock`) and adds exactly 1 to `rcu_idx`: the store of the first
pass, called with `ctr`, writes `ctr + 1`, and the store of the second pass,
called with `ctr + 1`, writes `ctr + 2`. Hence `rcu_idx` never decreases along
any continuation of the execution and never skips a value. -/
theorem C10_flip_adds_one (n : Nat) (s : State) (hs : Reachable n s) (l : Nat × Op) :
    ((step n s l).g.rcu_idx = s.g.rcu_idx ∨
      (l.1 < n ∧ l.2 = Op.synchronize_rcu ∧ s.g.rcu_gp_lock = true ∧
        holdsLock (s.thr l.1).wr = true ∧
        (step n s l).g.rcu_idx = s.g.rcu_idx + 1 ∧
        (((s.thr l.1).wr = WrPC.fcwStore false (s.thr l.1).ctr ∧
            (step n s l).g.rcu_idx = (s.thr l.1).ctr + 1) ∨
         ((s.thr l.1).wr = WrPC.fcwStore true ((s.thr l.1).ctr + 1) ∧
            (step n s l).g.rcu_idx = (s.thr l.1).ctr + 2)))) ∧
    ∀ τ, s.g.rcu_idx ≤ (exec n s τ).g.rcu_idx := by
  refine ⟨?_, fun τ => idx_mono_exec n hs.inv τ⟩
  obtain ⟨t, o⟩ := l
  by_cases ht : t < n
  swap
  · left; rw [step_ge n s _ ht]
  have hw := hs.inv.wr_ok t
  rw [step_g n s t o ht]
  cases o
  · left; exact (rcu_read_lock_idx t s.g (s.thr t)).1
  · left; exact (rcu_read_unlock_idx t s.g (s.thr t)).1
  · simp only [runOp]
    generalize hth : s.thr t = th at hw ⊢
    obtain ⟨rd, wr, oc, c, fl⟩ := th
    cases wr with
    | fcwStore b c0 =>
      right
      cases b <;> simp_all [WrOK, synchronize_rcu, flip_counter_and_wait, holdsLock]
      omega
    | fcwPoll b i p =>
      left
      cases b <;> simp only [synchronize_rcu, flip_counter_and_wait] <;> split_ifs <;> rfl
    | idle => left; cases rd <;> rfl
    | snapshotted => left; simp only [synchronize_rcu]; split_ifs <;> rfl
    | locked => left; simp only [synchronize_rcu]; split_ifs <;> rfl
    | early => left; rfl
    | unlock => left; rfl

/-! # Witnesses -/

/-- Witness for C1: the scenario of one reader (thread 0) and one writer (thread 1),
from the call of the writer to its return. -/
theorem C1_grace_period_witness :
    Reachable 2 scenA ∧ (scenA.thr 0).rd = RdPC.inCS 0 ∧ 1 < 2 ∧
    (scenA.thr 1).wr = WrPC.idle ∧ (∀ j, (scenA.thr 1).rd ≠ RdPC.fetched j) ∧
    ((exec 2 (sync 2 scenA 1) schedGrace).thr 1).wr = WrPC.idle ∧
    ∃ τ1 τ2, schedGrace = τ1 ++ τ2 ∧ ((exec 2 (sync 2 scenA 1) τ1).thr 0).rd = RdPC.out ∧
      ∀ τa τb, τ1 = τa ++ τb → ((exec 2 (sync 2 scenA 1) τa).thr 1).wr ≠ WrPC.idle :=
  have hrd : ∀ j, (scenA.thr 1).rd ≠ RdPC.fetched j := by
    have e : (scenA.thr 1).rd = RdPC.out := by decide
    intro j; rw [e]; simp
  ⟨⟨0, _, rfl⟩, by decide, by decide, by decide, hrd, by decide,
    (C1_grace_period 2 scenA ⟨0, _, rfl⟩ 0 0 1 (by decide) (by decide) (by decide)
      hrd schedGrace (by decide)).2.2⟩

/-- Witness for the amended C2: two calls that both snapshot index 0 first. -/
theorem C2_batch_amended_witness :
    callsAt 2 0 (init 0) schedBatch = true ∧
    (0 : Int) ≤ (exec 2 (init 0) schedBatch).g.rcu_idx ∧
    (exec 2 (init 0) schedBatch).g.rcu_idx - 0 ≤ 3 :=
  ⟨by decide, C2_batch_amended 2 0 schedBatch (by decide)⟩

/-- Witness for the amended C3: two calls that both snapshot index 0 first. -/
theorem C3_two_callers_amended_witness :
    callsAt 2 0 (init 0) schedBatch = true ∧ (0 : Nat) ≠ 1 ∧
    ¬ (((exec 2 (init 0) schedBatch).thr 0).flips = 2 ∧
       ((exec 2 (init 0) schedBatch).thr 1).flips = 2) :=
  ⟨by decide, by decide, C3_two_callers_amended 2 0 schedBatch (by decide) 0 1 (by decide)⟩

/-- Witness for C4: thread 1 re-reads index 4 against its snapshot 0. -/
theorem C4_early_return_witness :
    Reachable 2 stateC4 ∧ 1 < 2 ∧ (stateC4.thr 1).wr = WrPC.locked ∧
    stateC4.g.rcu_idx - (stateC4.thr 1).oldctr ≥ 3 ∧
    ((sync 2 stateC4 1).thr 1).wr = WrPC.early ∧
    (sync 2 (sync 2 stateC4 1) 1).g.rcu_idx = stateC4.g.rcu_idx ∧
    (sync 2 (sync 2 stateC4 1) 1).g.rcu_gp_lock = false :=
  have h := C4_early_return 2 stateC4 1 ⟨0, _, rfl⟩ (by decide) (by decide) (by decide)
  ⟨⟨0, _, rfl⟩, by decide, by decide, by decide, h.1.2.2.1,
    ((h.2 [] (by simp)).2.2.2.2.2.1), ((h.2 [] (by simp)).2.2.2.2.2.2.1)⟩

/-- Witness for C10: the first store of a call takes the index from 0 to 1. -/
theorem C10_flip_adds_one_witness :
    Reachable 1 stateC10 ∧
    (step 1 stateC10 (0, Op.synchronize_rcu)).g.rcu_idx = stateC10.g.rcu_idx + 1 ∧
    ∀ τ, stateC10.g.rcu_idx ≤ (exec 1 stateC10 τ).g.rcu_idx :=
  have h := C10_flip_adds_one 1 stateC10 ⟨0, _, rfl⟩ (0, Op.synchronize_rcu)
  ⟨⟨0, _, rfl⟩, (h.1.resolve_left (by decide)).2.2.2.2.1, h.2⟩

end RcuRcpls
